import Mathlib

/-!
Verification of the stack-bookkeeping engine of the cases generator
(`Tools/cases_generator/stack.py`): the `StackOffset` symbolic displacement
algebra (`simplify`, `to_c`) and the virtual `Stack` simulator
(`pop`, `push`, `flush`).

Python strings are modelled as Lean `String`; Python string comparison is
code-point lexicographic, modelled by `charListLt` below.  Python's mutable
objects are modelled by explicit state passing: every method that mutates
`self` returns the new state.  `SizeMismatch` is modelled by the
`PopResult.sizeMismatch` constructor and, for the driver loop, by `Option`.
-/

set_option maxHeartbeats 1000000

/-- Modelled from the spec: the stack-slot descriptor type (`StackItem` from
the external `analyzer` module) is not part of the source tree.  Per the spec
it carries a `name` (with sentinel `"unused"`), a `size` expression, an
optional `type` (empty string meaning absent), an optional boolean
`condition` (empty string meaning absent), a `peek` flag and an `is_array`
flag (modelled as the boolean field `isArray`). -/
structure StackItem where
  name : String
  type : String
  condition : String
  size : String
  peek : Bool
  isArray : Bool
  deriving DecidableEq

/-- Translation of `var_size` (stack.py lines 8-16). -/
def var_size (var : StackItem) : String :=
  if var.condition ≠ "" then
    if var.condition = "oparg & 1" ∧ var.size = "1" then
      "(" ++ var.condition ++ ")"
    else
      "((" ++ var.condition ++ ") ? " ++ var.size ++ " : 0)"
  else
    var.size

/-- Characters stripped by Python `int(str)` around a decimal literal. -/
def isPySpace (c : Char) : Bool :=
  c == ' ' || c == '\t' || c == '\n' || c == '\r' || c == '\x0b' || c == '\x0c'

/-- Value of a decimal digit character, if it is one. -/
def digitVal? (c : Char) : Option Nat :=
  if '0' ≤ c ∧ c ≤ '9' then some (c.toNat - '0'.toNat) else none

/-- Remaining digits of a Python decimal literal: digits possibly separated
by single underscores. -/
def pyDigitsTail (acc : Nat) : List Char → Option Nat
  | [] => some acc
  | '_' :: c :: rest =>
    match digitVal? c with
    | some d => pyDigitsTail (acc * 10 + d) rest
    | none => none
  | c :: rest =>
    match digitVal? c with
    | some d => pyDigitsTail (acc * 10 + d) rest
    | none => none

/-- A nonempty run of digits (with underscore separators) as a number. -/
def pyDigits? : List Char → Option Nat
  | [] => none
  | c :: rest =>
    match digitVal? c with
    | some d => pyDigitsTail d rest
    | none => none

/-- Strip trailing whitespace. -/
def pyStripRight (l : List Char) : List Char :=
  (l.reverse.dropWhile isPySpace).reverse

/-- Strip leading and trailing whitespace, as Python `int` does. -/
def pyStrip (l : List Char) : List Char :=
  pyStripRight (l.dropWhile isPySpace)

/-- Models Python `int(item)` applied to a string as used in
`StackOffset.to_c` (stack.py lines 62, 67): an optional sign followed by a
decimal literal, surrounded by optional whitespace; `none` models the
`ValueError` branch. -/
def pyInt? (s : String) : Option Int :=
  match pyStrip s.data with
  | [] => none
  | c :: rest =>
    if c = '+' then (pyDigits? rest).map (fun n => (n : Int))
    else if c = '-' then (pyDigits? rest).map (fun n => -(n : Int))
    else (pyDigits? (c :: rest)).map (fun n => (n : Int))

/-- Characters counting as operators for parenthesization purposes. -/
def isOpChar (c : Char) : Bool :=
  c == '+' || c == '-' || c == '*' || c == '/' || c == '%' || c == '&' ||
  c == '|' || c == '^' || c == '~' || c == '<' || c == '>' || c == '?' ||
  c == ':' || c == '!' || c == '='

/-- Modelled from the spec: `maybe_parenthesize` comes from the external
`formatting` module, which is not in the source tree; the spec says rendering
parenthesizes any symbolic term containing an operator. -/
def maybe_parenthesize (sym : String) : String :=
  if sym.data.any isOpChar then "(" ++ sym ++ ")" else sym

/-- Code-point lexicographic order on character lists: Python's `<` on
strings. -/
def charListLt : List Char → List Char → Bool
  | [], [] => false
  | [], _ :: _ => true
  | _ :: _, [] => false
  | a :: as, b :: bs =>
    if a < b then true
    else if a = b then charListLt as bs
    else false

/-- Python's `<` on strings. -/
def strLt (a b : String) : Bool := charListLt a.data b.data

/-- Python's `<=` on strings (total order, so the negation of `>`). -/
def strLe (a b : String) : Bool := !(strLt b a)

/-- `strLe` as a proposition, for use with `List.insertionSort`. -/
abbrev strLeProp (a b : String) : Prop := strLe a b = true

/-- Python `sorted` on a list of strings (ascending, code-point
lexicographic). -/
def sortStrings (l : List String) : List String :=
  List.insertionSort strLeProp l

/-- State of `StackOffset` (stack.py lines 19-24): the accumulated
popped and pushed size terms. -/
structure StackOffset where
  popped : List String
  pushed : List String
  deriving DecidableEq

/-- `StackOffset.pop` (stack.py lines 26-27). -/
def StackOffset.pop (o : StackOffset) (item : StackItem) : StackOffset :=
  { o with popped := o.popped ++ [var_size item] }

/-- `StackOffset.push` (stack.py lines 29-30). -/
def StackOffset.push (o : StackOffset) (item : StackItem) : StackOffset :=
  { o with pushed := o.pushed ++ [var_size item] }

/-- The `while popped and pushed` loop of `StackOffset.simplify`
(stack.py lines 41-52), on lists sorted in descending order (Python sorts
ascending and pops from the end).  The first component accumulates the final
`self.popped`, the second the final `self.pushed`; when one side runs out the
leftover of the other side is appended back in ascending order
(`extend`, lines 53-54).  The fuel argument is always at least the sum of
the list lengths, so the fuel-exhaustion case is never reached. -/
def mergeLoop : Nat → List String → List String → List String × List String
  | _, p, [] => (p.reverse, [])
  | _, [], q => ([], q.reverse)
  | 0, p, q => (p.reverse, q.reverse)
  | fuel + 1, a :: p, b :: q =>
    if a = b then mergeLoop fuel p q
    else if strLt b a then
      let r := mergeLoop fuel p (b :: q)
      (a :: r.1, r.2)
    else
      let r := mergeLoop fuel (a :: p) q
      (r.1, b :: r.2)

/-- `StackOffset.simplify` (stack.py lines 32-54). -/
def StackOffset.simplify (o : StackOffset) : StackOffset :=
  if o.popped = [] ∨ o.pushed = [] then o
  else
    let p := (sortStrings o.popped).reverse
    let q := (sortStrings o.pushed).reverse
    let r := mergeLoop (p.length + q.length) p q
    ⟨r.1, r.2⟩

/-- Python `res.startswith(pre)`. -/
def pyStartsWith (s pre : String) : Bool := pre.data.isPrefixOf s.data

/-- Python `res[n:]`. -/
def pyDrop (s : String) (n : Nat) : String := ⟨s.data.drop n⟩

/-- One iteration of the rendering loops of `StackOffset.to_c`
(stack.py lines 60-69): integer literals are folded into the integer
accumulator, other terms are appended to the symbolic accumulator. -/
def renderStep (sign : Bool) (acc : Int × String) (item : String) : Int × String :=
  match pyInt? item with
  | some n => (if sign then acc.1 + n else acc.1 - n, acc.2)
  | none => (acc.1, acc.2 ++ (if sign then " + " else " - ") ++ maybe_parenthesize item)

/-- The rendering part of `StackOffset.to_c` (stack.py lines 58-78), applied
after `simplify`. -/
def renderOffset (o : StackOffset) : String :=
  let acc1 := o.popped.foldl (renderStep false) (0, "")
  let acc2 := o.pushed.foldl (renderStep true) acc1
  let res0 := if acc2.2 ≠ "" ∧ acc2.1 = 0 then acc2.2 else toString acc2.1 ++ acc2.2
  let res1 := if pyStartsWith res0 " + " then pyDrop res0 3 else res0
  if pyStartsWith res1 " - " then "-" ++ pyDrop res1 3 else res1

/-- `StackOffset.to_c` (stack.py lines 56-78).  The call mutates the object
by running `simplify`; the new state is returned together with the rendered
string. -/
def StackOffset.to_c (o : StackOffset) : StackOffset × String :=
  let o2 := o.simplify
  (o2, renderOffset o2)

/-- The string returned by a single `to_c()` call. -/
def StackOffset.toCString (o : StackOffset) : String := (o.to_c).2

/-- `StackOffset.clear` (stack.py lines 80-82). -/
def StackOffset.clear (_ : StackOffset) : StackOffset := ⟨[], []⟩

/-- Result of `Stack.pop`: either the returned code string or a raised
`SizeMismatch` with its message (stack.py lines 85-86, 104-108). -/
inductive PopResult where
  | ok (code : String) : PopResult
  | sizeMismatch (msg : String) : PopResult
  deriving DecidableEq

/-- State of `Stack` (stack.py lines 89-95).  The Python `set` `defined` is
modelled as a duplicate-free list. -/
structure Stack where
  top_offset : StackOffset
  base_offset : StackOffset
  peek_offset : StackOffset
  vars : List StackItem
  defined : List String
  deriving DecidableEq

/-- `Stack.__init__` (stack.py lines 90-95). -/
def Stack.init : Stack := ⟨⟨[], []⟩, ⟨[], []⟩, ⟨[], []⟩, [], []⟩

/-- A plain slot: no type, no condition, not a peek, not an array.  Used as
sample input in concrete checks. -/
def itemN (name size : String) : StackItem := ⟨name, "", "", size, false, false⟩

/-- An empty offset accumulator. -/
def off0 : StackOffset := ⟨[], []⟩

/-- Python `set.add`. -/
def insertDef (l : List String) (x : String) : List String :=
  if x ∈ l then l else l ++ [x]

/-- `Stack.pop` (stack.py lines 97-132).  `self.variables.pop()` removes the
last element of the in-flight list; the size check happens after that
removal and after the recordings against `top_offset` and `peek_offset`. -/
def Stack.pop (s : Stack) (var : StackItem) : Stack × PopResult :=
  let top1 := s.top_offset.pop var
  let peek1 := if var.peek then s.peek_offset else s.peek_offset.pop var
  let indirect := if var.isArray then "&" else ""
  match s.vars.getLast? with
  | some popd =>
    let vars' := s.vars.dropLast
    if popd.size ≠ var.size then
      ({ s with top_offset := top1, peek_offset := peek1, vars := vars' },
        .sizeMismatch ("Size mismatch when popping '" ++ popd.name ++
          "' from stack to assign to " ++ var.name ++ ". Expected " ++
          var.size ++ " got " ++ popd.size))
    else if popd.name = var.name then
      ({ s with top_offset := top1, peek_offset := peek1, vars := vars' }, .ok "")
    else if popd.name = "unused" then
      let r := top1.to_c
      ({ s with top_offset := r.1, peek_offset := peek1, vars := vars',
                defined := insertDef s.defined var.name },
        .ok (var.name ++ " = " ++ indirect ++ "stack_pointer[" ++ r.2 ++ "];\n"))
    else if var.name = "unused" then
      ({ s with top_offset := top1, peek_offset := peek1, vars := vars' }, .ok "")
    else
      ({ s with top_offset := top1, peek_offset := peek1, vars := vars',
                defined := insertDef s.defined var.name },
        .ok (var.name ++ " = " ++ popd.name ++ ";\n"))
  | none =>
    let base1 := s.base_offset.pop var
    if var.name = "unused" then
      ({ s with top_offset := top1, peek_offset := peek1, base_offset := base1 }, .ok "")
    else
      let cast := if indirect = "" ∧ var.type ≠ "" then "(" ++ var.type ++ ")" else ""
      let r := base1.to_c
      let assign := var.name ++ " = " ++ cast ++ indirect ++ "stack_pointer[" ++ r.2 ++ "];"
      let code :=
        if var.condition ≠ "" then
          "if (" ++ var.condition ++ ") \x7b " ++ assign ++ " \x7d\n"
        else assign ++ "\n"
      ({ s with top_offset := top1, peek_offset := peek1, base_offset := r.1,
                defined := insertDef s.defined var.name }, .ok code)

/-- `Stack.push` (stack.py lines 134-143). -/
def Stack.push (s : Stack) (var : StackItem) : Stack × String :=
  let vars' := s.vars ++ [var]
  if var.isArray ∧ var.name ∉ s.defined ∧ var.name ≠ "unused" then
    let r := s.top_offset.to_c
    ({ s with vars := vars', top_offset := r.1.push var,
              defined := insertDef s.defined var.name },
      var.name ++ " = &stack_pointer[" ++ r.2 ++ "];\n")
  else
    ({ s with vars := vars', top_offset := s.top_offset.push var }, "")

/-- One iteration of the write-back loop of `Stack.flush`
(stack.py lines 146-155), threading the base offset and the emitted
statements. -/
def flushStep (acc : StackOffset × List String) (var : StackItem) :
    StackOffset × List String :=
  let b := acc.1
  let outs := acc.2
  if var.peek then (b.push var, outs)
  else
    let cast := if var.type ≠ "" then "(PyObject *)" else ""
    if var.name ≠ "unused" ∧ ¬ var.isArray then
      let outs1 := if var.condition ≠ "" then outs ++ ["if (" ++ var.condition ++ ") "] else outs
      let r := b.to_c
      (r.1.push var, outs1 ++ ["stack_pointer[" ++ r.2 ++ "] = " ++ cast ++ var.name ++ ";\n"])
    else (b.push var, outs)

/-- `Stack.flush` (stack.py lines 145-165).  The failed internal assertion
(`assert False` when the rendered base and top displacements differ,
lines 156-158) is modelled by `none`.  Note that `clear` resets the three
offsets and the in-flight list but not `defined`. -/
def Stack.flush (s : Stack) : Option (Stack × List String) :=
  let fr := s.vars.foldl flushStep (s.base_offset, [])
  let rb := fr.1.to_c
  let rt := s.top_offset.to_c
  if rb.2 ≠ rt.2 then none
  else
    let rn := rb.1.to_c
    let outs := if rn.2 ≠ "0" then fr.2 ++ ["stack_pointer += " ++ rn.2 ++ ";\n"] else fr.2
    some ({ s with vars := [], base_offset := ⟨[], []⟩, top_offset := ⟨[], []⟩,
                   peek_offset := ⟨[], []⟩ }, outs)

/-- One driver-issued operation on the simulator. -/
inductive Op where
  | popOp (v : StackItem) : Op
  | pushOp (v : StackItem) : Op
  deriving DecidableEq

/-- The slot an operation carries. -/
def Op.item : Op → StackItem
  | .popOp v => v
  | .pushOp v => v

/-- Run a sequence of pop/push calls, collecting the returned code strings;
`none` models a `SizeMismatch` escaping to the driver. -/
def runStack : Stack → List Op → Option (Stack × List String)
  | s, [] => some (s, [])
  | s, Op.pushOp v :: ops =>
    let r := s.push v
    (runStack r.1 ops).map (fun t => (t.1, r.2 :: t.2))
  | s, Op.popOp v :: ops =>
    match s.pop v with
    | (s1, PopResult.ok out) => (runStack s1 ops).map (fun t => (t.1, out :: t.2))
    | (_, PopResult.sizeMismatch _) => none

/-- Checks that every pop in the sequence is issued while the in-flight list
is nonempty (so it consumes an in-flight value and never touches
`base_offset`). -/
def popsInFlightOk : Stack → List Op → Bool
  | _, [] => true
  | s, Op.pushOp v :: ops => popsInFlightOk (s.push v).1 ops
  | s, Op.popOp v :: ops => !s.vars.isEmpty && popsInFlightOk (s.pop v).1 ops

/-- The effective-size terms of the pops of a sequence, in order. -/
def popTerms (ops : List Op) : List String :=
  ops.filterMap fun op =>
    match op with
    | Op.popOp v => some (var_size v)
    | Op.pushOp _ => none

/-- The effective-size terms of the pushes of a sequence, in order. -/
def pushTerms (ops : List Op) : List String :=
  ops.filterMap fun op =>
    match op with
    | Op.pushOp v => some (var_size v)
    | Op.popOp _ => none

/-- Occurrence count of a string in a list (multiset view of the term
lists). -/
def cnt (x : String) : List String → Nat
  | [] => 0
  | y :: l => (if y = x then 1 else 0) + cnt x l

/-- Sum of the integer values of the terms of a list (non-integer terms
count as zero). -/
def sumIntOf (l : List String) : Int :=
  (l.map fun x => (pyInt? x).getD 0).sum

/-- Net integer displacement of an offset. -/
def offNet (o : StackOffset) : Int := sumIntOf o.pushed - sumIntOf o.popped

/-- Every term of the list is an integer literal. -/
def allIntList (l : List String) : Prop := ∀ x ∈ l, (pyInt? x).isSome

/-- Both term lists of the offset hold only integer literals. -/
def allIntOff (o : StackOffset) : Prop := allIntList o.popped ∧ allIntList o.pushed

/-- What `renderOffset` produces when the symbolic accumulator is empty:
the integer printed, then the two `startswith` fix-ups. -/
def intRenderFix (n : Int) : String :=
  let res0 := toString n ++ ""
  let res1 := if pyStartsWith res0 " + " then pyDrop res0 3 else res0
  if pyStartsWith res1 " - " then "-" ++ pyDrop res1 3 else res1

/-- Invariant tying the integer displacements of the two offsets to the
in-flight list, for runs whose effective sizes are all integer literals. -/
def StackInvInt (s : Stack) : Prop :=
  allIntOff s.top_offset ∧ allIntOff s.base_offset ∧
  (∀ v ∈ s.vars, (pyInt? (var_size v)).isSome) ∧
  offNet s.top_offset = offNet s.base_offset + sumIntOf (s.vars.map var_size)


/-! ### Properties of the lexicographic string order -/

theorem charListLt_cons_iff (a b : Char) (as bs : List Char) :
    charListLt (a :: as) (b :: bs) = true ↔ a < b ∨ (a = b ∧ charListLt as bs = true) := by
  simp only [charListLt]
  split_ifs with h1 h2
  · simp [h1]
  · simp [h1, h2]
  · simp [h1, h2]

theorem charListLt_irrefl (l : List Char) : charListLt l l = false := by
  induction l with
  | nil => rfl
  | cons a as ih =>
    rw [Bool.eq_false_iff]
    intro h
    rw [charListLt_cons_iff] at h
    rcases h with h | ⟨-, h⟩
    · exact lt_irrefl a h
    · rw [ih] at h
      cases h

theorem charListLt_asymm : ∀ {l m : List Char}, charListLt l m = true → charListLt m l = false
  | [], [], h => by cases h
  | [], _ :: _, _ => rfl
  | _ :: _, [], h => by cases h
  | a :: as, b :: bs, h => by
    rw [charListLt_cons_iff] at h
    rw [Bool.eq_false_iff]
    intro h'
    rw [charListLt_cons_iff] at h'
    rcases h with h | ⟨rfl, h⟩ <;> rcases h' with h' | ⟨h'e, h'⟩
    · exact absurd h' (lt_asymm h)
    · exact absurd h (h'e ▸ lt_irrefl b)
    · exact absurd h' (lt_irrefl a)
    · rw [charListLt_asymm h] at h'
      cases h'

theorem charListLt_connex : ∀ {l m : List Char}, l ≠ m →
    charListLt l m = true ∨ charListLt m l = true
  | [], [], h => absurd rfl h
  | [], _ :: _, _ => Or.inl rfl
  | _ :: _, [], _ => Or.inr rfl
  | a :: as, b :: bs, h => by
    rcases lt_trichotomy a b with hab | rfl | hab
    · exact Or.inl ((charListLt_cons_iff ..).mpr (Or.inl hab))
    · have : as ≠ bs := fun he => h (by rw [he])
      rcases charListLt_connex this with h' | h'
      · exact Or.inl ((charListLt_cons_iff ..).mpr (Or.inr ⟨rfl, h'⟩))
      · exact Or.inr ((charListLt_cons_iff ..).mpr (Or.inr ⟨rfl, h'⟩))
    · exact Or.inr ((charListLt_cons_iff ..).mpr (Or.inl hab))

theorem charListLt_trans : ∀ {l m n : List Char},
    charListLt l m = true → charListLt m n = true → charListLt l n = true
  | [], [], _, h, _ => by cases h
  | [], _ :: _, [], _, h => by cases h
  | [], _ :: _, _ :: _, _, _ => rfl
  | _ :: _, [], _, h, _ => by cases h
  | _ :: _, _ :: _, [], _, h => by cases h
  | a :: as, b :: bs, c :: cs, h1, h2 => by
    rw [charListLt_cons_iff] at h1 h2 ⊢
    rcases h1 with h1 | ⟨rfl, h1⟩ <;> rcases h2 with h2 | ⟨rfl, h2⟩
    · exact Or.inl (lt_trans h1 h2)
    · exact Or.inl h1
    · exact Or.inl h2
    · exact Or.inr ⟨rfl, charListLt_trans h1 h2⟩

theorem string_ext {a b : String} (h : a.data = b.data) : a = b := by
  cases a
  cases b
  exact congrArg String.mk h

theorem strLt_irrefl (a : String) : strLt a a = false := charListLt_irrefl a.data

theorem strLt_asymm {a b : String} (h : strLt a b = true) : strLt b a = false :=
  charListLt_asymm h

theorem strLt_connex {a b : String} (h : a ≠ b) : strLt a b = true ∨ strLt b a = true :=
  charListLt_connex fun hd => h (string_ext hd)

theorem strLt_trans {a b c : String} (h1 : strLt a b = true) (h2 : strLt b c = true) :
    strLt a c = true :=
  charListLt_trans h1 h2

theorem strLe_refl (a : String) : strLe a a = true := by
  simp [strLe, strLt_irrefl]

theorem strLe_total (a b : String) : strLe a b = true ∨ strLe b a = true := by
  by_cases h : strLt b a = true
  · right
    simp [strLe, strLt_asymm h]
  · left
    simp [strLe, Bool.eq_false_iff.mpr h]

theorem strLe_trans {a b c : String} (h1 : strLe a b = true) (h2 : strLe b c = true) :
    strLe a c = true := by
  simp only [strLe, Bool.not_eq_true'] at h1 h2 ⊢
  rw [Bool.eq_false_iff]
  intro hca
  by_cases hbc : b = c
  · rw [hbc] at h1
    rw [h1] at hca
    cases hca
  · rcases strLt_connex hbc with h | h
    · rw [strLt_trans h hca] at h1
      cases h1
    · rw [h] at h2
      cases h2

theorem strLe_antisymm {a b : String} (h1 : strLe a b = true) (h2 : strLe b a = true) :
    a = b := by
  by_contra hne
  simp only [strLe, Bool.not_eq_true'] at h1 h2
  rcases strLt_connex hne with h | h
  · rw [h] at h2
    cases h2
  · rw [h] at h1
    cases h1

/-! ### Properties of `sortStrings` -/

theorem sortStrings_perm (l : List String) : List.Perm (sortStrings l) l :=
  List.perm_insertionSort _ l

theorem sortStrings_sorted (l : List String) : List.Sorted strLeProp (sortStrings l) := by
  haveI : IsTotal String strLeProp := ⟨fun a b => strLe_total a b⟩
  haveI : IsTrans String strLeProp := ⟨fun _ _ _ => strLe_trans⟩
  exact List.sorted_insertionSort _ l

theorem sortStrings_eq_of_perm {l m : List String} (h : List.Perm l m) :
    sortStrings l = sortStrings m := by
  haveI : IsAntisymm String strLeProp := ⟨fun _ _ => strLe_antisymm⟩
  exact List.eq_of_perm_of_sorted
    ((sortStrings_perm l).trans (h.trans (sortStrings_perm m).symm))
    (sortStrings_sorted l) (sortStrings_sorted m)

/-! ### Properties of `cnt` -/

theorem cnt_append (x : String) (l m : List String) :
    cnt x (l ++ m) = cnt x l + cnt x m := by
  induction l with
  | nil => simp [cnt]
  | cons y l ih => simp [cnt, ih, Nat.add_assoc]

theorem cnt_perm {l m : List String} (h : List.Perm l m) (x : String) :
    cnt x l = cnt x m := by
  induction h with
  | nil => rfl
  | cons y _ ih => simp [cnt, ih]
  | swap y z l => simp [cnt]; omega
  | trans _ _ ih1 ih2 => exact ih1.trans ih2

theorem cnt_reverse (x : String) (l : List String) : cnt x l.reverse = cnt x l :=
  cnt_perm l.reverse_perm x

theorem cnt_pos_iff_mem {x : String} {l : List String} : 0 < cnt x l ↔ x ∈ l := by
  induction l with
  | nil => simp [cnt]
  | cons y l ih =>
    by_cases h : y = x
    · subst h
      simp [cnt]
    · simp [cnt, h, ih, Ne.symm h]

theorem eq_nil_of_cnt_eq_zero {l : List String} (h : ∀ x, cnt x l = 0) : l = [] := by
  cases l with
  | nil => rfl
  | cons y l => simp [cnt] at h; exact absurd (h y) (by simp)

theorem cnt_sortStrings (x : String) (l : List String) :
    cnt x (sortStrings l) = cnt x l :=
  cnt_perm (sortStrings_perm l) x

theorem cnt_eq_count (x : String) (l : List String) : cnt x l = l.count x := by
  induction l with
  | nil => rfl
  | cons y l ih =>
    rw [List.count_cons, cnt, ih]
    by_cases h : y = x
    · subst h
      simp [Nat.add_comm]
    · simp [h, Ne.symm h]

theorem perm_of_cnt_eq {l m : List String} (h : ∀ x, cnt x l = cnt x m) :
    List.Perm l m :=
  List.perm_iff_count.mpr fun a => by rw [← cnt_eq_count, ← cnt_eq_count]; exact h a

/-! ### Properties of `sumIntOf` and `mergeLoop` -/

theorem cnt_cons_self (x : String) (l : List String) : cnt x (x :: l) = 1 + cnt x l := by
  simp [cnt]

theorem cnt_cons_ne {y x : String} (h : y ≠ x) (l : List String) :
    cnt x (y :: l) = cnt x l := by
  simp [cnt, h]

theorem sumIntOf_nil : sumIntOf [] = 0 := rfl

theorem sumIntOf_cons (x : String) (l : List String) :
    sumIntOf (x :: l) = (pyInt? x).getD 0 + sumIntOf l := by
  simp [sumIntOf]

theorem sumIntOf_append (l m : List String) :
    sumIntOf (l ++ m) = sumIntOf l + sumIntOf m := by
  simp [sumIntOf]

theorem sumIntOf_reverse (l : List String) : sumIntOf l.reverse = sumIntOf l := by
  simp [sumIntOf, List.sum_reverse]

theorem sumIntOf_perm {l m : List String} (h : List.Perm l m) :
    sumIntOf l = sumIntOf m :=
  (h.map _).sum_eq

theorem mergeLoop_net (fuel : Nat) (p q : List String) :
    sumIntOf (mergeLoop fuel p q).2 - sumIntOf (mergeLoop fuel p q).1 =
      sumIntOf q - sumIntOf p := by
  induction fuel, p, q using mergeLoop.induct with
  | case1 t p =>
    simp [mergeLoop, sumIntOf_reverse, sumIntOf_nil]
  | case2 t q hq =>
    cases q with
    | nil => exact absurd rfl hq
    | cons b q =>
      simp [mergeLoop, sumIntOf_append, sumIntOf_cons, sumIntOf_reverse, sumIntOf_nil]
      omega
  | case3 p q hq hp =>
    cases p with
    | nil => exact absurd rfl hp
    | cons a p =>
      cases q with
      | nil => exact absurd rfl hq
      | cons b q =>
        simp [mergeLoop, sumIntOf_append, sumIntOf_cons, sumIntOf_reverse, sumIntOf_nil]
        omega
  | case4 fuel p b q ih =>
    have hred : mergeLoop (fuel + 1) (b :: p) (b :: q) = mergeLoop fuel p q := by
      simp [mergeLoop]
    rw [hred, sumIntOf_cons, sumIntOf_cons]
    omega
  | case5 fuel a p b q hne hlt ih =>
    have hred : mergeLoop (fuel + 1) (a :: p) (b :: q) =
        (a :: (mergeLoop fuel p (b :: q)).1, (mergeLoop fuel p (b :: q)).2) := by
      simp [mergeLoop, hne, hlt]
    rw [hred]
    simp only [sumIntOf_cons] at ih ⊢
    omega
  | case6 fuel a p b q hne hlt ih =>
    have hred : mergeLoop (fuel + 1) (a :: p) (b :: q) =
        ((mergeLoop fuel (a :: p) q).1, b :: (mergeLoop fuel (a :: p) q).2) := by
      simp [mergeLoop, hne, hlt]
    rw [hred]
    simp only [sumIntOf_cons] at ih ⊢
    omega

theorem mergeLoop_mem_left (fuel : Nat) (p q : List String) :
    ∀ x ∈ (mergeLoop fuel p q).1, x ∈ p := by
  induction fuel, p, q using mergeLoop.induct with
  | case1 t p => simp [mergeLoop]
  | case2 t q hq =>
    cases q with
    | nil => exact absurd rfl hq
    | cons b q => simp [mergeLoop]
  | case3 p q hq hp =>
    cases p with
    | nil => exact absurd rfl hp
    | cons a p =>
      cases q with
      | nil => exact absurd rfl hq
      | cons b q =>
        simp [mergeLoop]
        tauto
  | case4 fuel p b q ih =>
    have hred : mergeLoop (fuel + 1) (b :: p) (b :: q) = mergeLoop fuel p q := by
      simp [mergeLoop]
    rw [hred]
    intro x hx
    exact List.mem_cons_of_mem b (ih x hx)
  | case5 fuel a p b q hne hlt ih =>
    have hred : mergeLoop (fuel + 1) (a :: p) (b :: q) =
        (a :: (mergeLoop fuel p (b :: q)).1, (mergeLoop fuel p (b :: q)).2) := by
      simp [mergeLoop, hne, hlt]
    rw [hred]
    intro x hx
    rcases List.mem_cons.mp hx with rfl | hx
    · exact List.mem_cons_self x p
    · exact List.mem_cons_of_mem a (ih x hx)
  | case6 fuel a p b q hne hlt ih =>
    have hred : mergeLoop (fuel + 1) (a :: p) (b :: q) =
        ((mergeLoop fuel (a :: p) q).1, b :: (mergeLoop fuel (a :: p) q).2) := by
      simp [mergeLoop, hne, hlt]
    rw [hred]
    exact ih

theorem mergeLoop_mem_right (fuel : Nat) (p q : List String) :
    ∀ x ∈ (mergeLoop fuel p q).2, x ∈ q := by
  induction fuel, p, q using mergeLoop.induct with
  | case1 t p => simp [mergeLoop]
  | case2 t q hq =>
    cases q with
    | nil => exact absurd rfl hq
    | cons b q =>
      simp [mergeLoop]
      tauto
  | case3 p q hq hp =>
    cases p with
    | nil => exact absurd rfl hp
    | cons a p =>
      cases q with
      | nil => exact absurd rfl hq
      | cons b q =>
        simp [mergeLoop]
        tauto
  | case4 fuel p b q ih =>
    have hred : mergeLoop (fuel + 1) (b :: p) (b :: q) = mergeLoop fuel p q := by
      simp [mergeLoop]
    rw [hred]
    intro x hx
    exact List.mem_cons_of_mem b (ih x hx)
  | case5 fuel a p b q hne hlt ih =>
    have hred : mergeLoop (fuel + 1) (a :: p) (b :: q) =
        (a :: (mergeLoop fuel p (b :: q)).1, (mergeLoop fuel p (b :: q)).2) := by
      simp [mergeLoop, hne, hlt]
    rw [hred]
    exact ih
  | case6 fuel a p b q hne hlt ih =>
    have hred : mergeLoop (fuel + 1) (a :: p) (b :: q) =
        ((mergeLoop fuel (a :: p) q).1, b :: (mergeLoop fuel (a :: p) q).2) := by
      simp [mergeLoop, hne, hlt]
    rw [hred]
    intro x hx
    rcases List.mem_cons.mp hx with rfl | hx
    · exact List.mem_cons_self x q
    · exact List.mem_cons_of_mem b (ih x hx)

theorem mergeLoop_cnt (x : String) (fuel : Nat) (p q : List String) :
    p.length + q.length ≤ fuel →
    List.Pairwise (fun u v => strLe v u = true) p →
    List.Pairwise (fun u v => strLe v u = true) q →
    cnt x (mergeLoop fuel p q).1 = cnt x p - cnt x q ∧
    cnt x (mergeLoop fuel p q).2 = cnt x q - cnt x p := by
  induction fuel, p, q using mergeLoop.induct with
  | case1 t p =>
    intro _ _ _
    constructor
    · simp [mergeLoop, cnt_reverse, cnt]
    · simp [mergeLoop, cnt]
  | case2 t q hq =>
    cases q with
    | nil => exact absurd rfl hq
    | cons b q =>
      intro _ _ _
      constructor
      · simp [mergeLoop, cnt]
      · simp [mergeLoop, cnt_append, cnt_reverse, cnt]
        omega
  | case3 p q hq hp =>
    cases p with
    | nil => exact absurd rfl hp
    | cons a p =>
      cases q with
      | nil => exact absurd rfl hq
      | cons b q =>
        intro hlen _ _
        simp at hlen
  | case4 fuel p b q ih =>
    intro hlen hp hq
    have hlen' : p.length + q.length ≤ fuel := by
      simp at hlen
      omega
    obtain ⟨ih1, ih2⟩ := ih hlen' hp.of_cons hq.of_cons
    have hred : mergeLoop (fuel + 1) (b :: p) (b :: q) = mergeLoop fuel p q := by
      simp [mergeLoop]
    rw [hred]
    by_cases hbx : b = x
    · subst hbx
      rw [cnt_cons_self, cnt_cons_self]
      omega
    · rw [cnt_cons_ne hbx, cnt_cons_ne hbx]
      omega
  | case5 fuel a p b q hne hlt ih =>
    intro hlen hp hq
    have hlen' : p.length + (b :: q).length ≤ fuel := by
      simp at hlen ⊢
      omega
    obtain ⟨ih1, ih2⟩ := ih hlen' hp.of_cons hq
    have hanb : a ∉ b :: q := by
      intro hmem
      have hle : strLe a b = true := by
        rcases List.mem_cons.mp hmem with rfl | hmem'
        · exact strLe_refl a
        · exact (List.pairwise_cons.mp hq).1 a hmem'
      rw [strLe, hlt] at hle
      cases hle
    have hred : mergeLoop (fuel + 1) (a :: p) (b :: q) =
        (a :: (mergeLoop fuel p (b :: q)).1, (mergeLoop fuel p (b :: q)).2) := by
      simp [mergeLoop, hne, hlt]
    rw [hred]
    dsimp only
    by_cases hax : a = x
    · subst hax
      have h0 : cnt a (b :: q) = 0 := by
        have : ¬ 0 < cnt a (b :: q) := fun hpos => hanb (cnt_pos_iff_mem.mp hpos)
        omega
      rw [cnt_cons_self, cnt_cons_self]
      omega
    · rw [cnt_cons_ne hax, cnt_cons_ne hax]
      omega
  | case6 fuel a p b q hne hlt ih =>
    intro hlen hp hq
    have hlen' : (a :: p).length + q.length ≤ fuel := by
      simp at hlen ⊢
      omega
    obtain ⟨ih1, ih2⟩ := ih hlen' hp hq.of_cons
    have hlt' : strLt a b = true := by
      rcases strLt_connex hne with h | h
      · exact h
      · exact absurd h hlt
    have hbnp : b ∉ a :: p := by
      intro hmem
      have hle : strLe b a = true := by
        rcases List.mem_cons.mp hmem with rfl | hmem'
        · exact strLe_refl b
        · exact (List.pairwise_cons.mp hp).1 b hmem'
      rw [strLe, hlt'] at hle
      cases hle
    have hred : mergeLoop (fuel + 1) (a :: p) (b :: q) =
        ((mergeLoop fuel (a :: p) q).1, b :: (mergeLoop fuel (a :: p) q).2) := by
      simp [mergeLoop, hne, hlt]
    rw [hred]
    dsimp only
    by_cases hbx : b = x
    · subst hbx
      have h0 : cnt b (a :: p) = 0 := by
        have : ¬ 0 < cnt b (a :: p) := fun hpos => hbnp (cnt_pos_iff_mem.mp hpos)
        omega
      rw [cnt_cons_self, cnt_cons_self]
      omega
    · rw [cnt_cons_ne hbx, cnt_cons_ne hbx]
      omega

/-! ### Properties of `StackOffset.simplify` and rendering -/

theorem sortedDesc_of_sort (l : List String) :
    List.Pairwise (fun u v => strLe v u = true) (sortStrings l).reverse := by
  rw [List.pairwise_reverse]
  exact sortStrings_sorted l

theorem simplify_cnt (o : StackOffset) (x : String) :
    cnt x o.simplify.popped = cnt x o.popped - cnt x o.pushed ∧
    cnt x o.simplify.pushed = cnt x o.pushed - cnt x o.popped := by
  unfold StackOffset.simplify
  split_ifs with h
  · rcases h with h | h
    · have h0 : cnt x o.popped = 0 := by rw [h]; rfl
      constructor <;> omega
    · have h0 : cnt x o.pushed = 0 := by rw [h]; rfl
      constructor <;> omega
  · have hs := mergeLoop_cnt x
      ((sortStrings o.popped).reverse.length + (sortStrings o.pushed).reverse.length)
      (sortStrings o.popped).reverse (sortStrings o.pushed).reverse
      le_rfl (sortedDesc_of_sort _) (sortedDesc_of_sort _)
    rw [cnt_reverse, cnt_reverse, cnt_sortStrings, cnt_sortStrings] at hs
    exact hs

theorem simplify_disjoint (o : StackOffset) (x : String) :
    ¬(x ∈ o.simplify.popped ∧ x ∈ o.simplify.pushed) := by
  rintro ⟨h1, h2⟩
  have c1 := (simplify_cnt o x).1
  have c2 := (simplify_cnt o x).2
  have p1 := cnt_pos_iff_mem.mpr h1
  have p2 := cnt_pos_iff_mem.mpr h2
  omega

theorem simplify_net (o : StackOffset) : offNet o.simplify = offNet o := by
  unfold StackOffset.simplify
  split_ifs with h
  · rfl
  · show sumIntOf (mergeLoop _ _ _).2 - sumIntOf (mergeLoop _ _ _).1 = _
    rw [mergeLoop_net, sumIntOf_reverse, sumIntOf_reverse,
      sumIntOf_perm (sortStrings_perm o.popped), sumIntOf_perm (sortStrings_perm o.pushed)]
    rfl

theorem simplify_allInt {o : StackOffset} (h : allIntOff o) : allIntOff o.simplify := by
  unfold StackOffset.simplify
  split_ifs with hg
  · exact h
  · constructor
    · intro x hx
      have hx' := mergeLoop_mem_left _ _ _ x hx
      rw [List.mem_reverse, (sortStrings_perm o.popped).mem_iff] at hx'
      exact h.1 x hx'
    · intro x hx
      have hx' := mergeLoop_mem_right _ _ _ x hx
      rw [List.mem_reverse, (sortStrings_perm o.pushed).mem_iff] at hx'
      exact h.2 x hx'

theorem simplify_eq_of_perm {o t : StackOffset}
    (hpo : List.Perm o.popped t.popped) (hpu : List.Perm o.pushed t.pushed)
    (h1 : o.popped ≠ []) (h2 : o.pushed ≠ []) : o.simplify = t.simplify := by
  have hno : ¬(o.popped = [] ∨ o.pushed = []) := by
    rintro (h | h)
    · exact h1 h
    · exact h2 h
  have hnt : ¬(t.popped = [] ∨ t.pushed = []) := by
    rintro (h | h)
    · rw [h] at hpo
      exact h1 hpo.eq_nil
    · rw [h] at hpu
      exact h2 hpu.eq_nil
  simp only [StackOffset.simplify, if_neg hno, if_neg hnt,
    sortStrings_eq_of_perm hpo, sortStrings_eq_of_perm hpu]

theorem simplify_of_guard {o : StackOffset} (h : o.popped = [] ∨ o.pushed = []) :
    o.simplify = o := by
  unfold StackOffset.simplify
  rw [if_pos h]

theorem cnt_simplify_of_disjoint {o : StackOffset}
    (hd : ∀ x, ¬(x ∈ o.popped ∧ x ∈ o.pushed)) (x : String) :
    cnt x o.simplify.popped = cnt x o.popped ∧
    cnt x o.simplify.pushed = cnt x o.pushed := by
  have c1 := (simplify_cnt o x).1
  have c2 := (simplify_cnt o x).2
  by_cases hp : x ∈ o.popped
  · have hq : x ∉ o.pushed := fun hq => hd x ⟨hp, hq⟩
    have h0 : cnt x o.pushed = 0 := by
      have hnpos : ¬ 0 < cnt x o.pushed := fun hh => hq (cnt_pos_iff_mem.mp hh)
      omega
    omega
  · have h0 : cnt x o.popped = 0 := by
      have hnpos : ¬ 0 < cnt x o.popped := fun hh => hp (cnt_pos_iff_mem.mp hh)
      omega
    omega

theorem simplify_stable (o : StackOffset) :
    o.simplify.simplify.simplify = o.simplify.simplify := by
  have hd : ∀ x, ¬(x ∈ o.simplify.popped ∧ x ∈ o.simplify.pushed) := simplify_disjoint o
  by_cases hg : o.simplify.popped = [] ∨ o.simplify.pushed = []
  · have hfix : o.simplify.simplify = o.simplify := simplify_of_guard hg
    rw [hfix]
    exact hfix
  · push_neg at hg
    have hperm1 : List.Perm o.simplify.simplify.popped o.simplify.popped :=
      perm_of_cnt_eq fun x => (cnt_simplify_of_disjoint hd x).1
    have hperm2 : List.Perm o.simplify.simplify.pushed o.simplify.pushed :=
      perm_of_cnt_eq fun x => (cnt_simplify_of_disjoint hd x).2
    have hne1 : o.simplify.simplify.popped ≠ [] := by
      intro he
      rw [he] at hperm1
      exact hg.1 (List.Perm.eq_nil hperm1.symm)
    have hne2 : o.simplify.simplify.pushed ≠ [] := by
      intro he
      rw [he] at hperm2
      exact hg.2 (List.Perm.eq_nil hperm2.symm)
    exact simplify_eq_of_perm hperm1 hperm2 hne1 hne2

theorem foldl_renderStep_false {l : List String} (h : allIntList l) :
    ∀ (i : Int) (str : String),
      l.foldl (renderStep false) (i, str) = (i - sumIntOf l, str) := by
  induction l with
  | nil =>
    intro i str
    simp [sumIntOf_nil]
  | cons x l ih =>
    intro i str
    obtain ⟨n, hn⟩ := Option.isSome_iff_exists.mp (h x (List.mem_cons_self x l))
    have hstep : renderStep false (i, str) x = (i - n, str) := by
      simp [renderStep, hn]
    rw [List.foldl_cons, hstep, ih (fun y hy => h y (List.mem_cons_of_mem x hy)),
      sumIntOf_cons, hn]
    have harith : i - ↑n - sumIntOf l = i - ((some (n : Int)).getD 0 + sumIntOf l) := by
      simp
      ring
    rw [harith]

theorem foldl_renderStep_true {l : List String} (h : allIntList l) :
    ∀ (i : Int) (str : String),
      l.foldl (renderStep true) (i, str) = (i + sumIntOf l, str) := by
  induction l with
  | nil =>
    intro i str
    simp [sumIntOf_nil]
  | cons x l ih =>
    intro i str
    obtain ⟨n, hn⟩ := Option.isSome_iff_exists.mp (h x (List.mem_cons_self x l))
    have hstep : renderStep true (i, str) x = (i + n, str) := by
      simp [renderStep, hn]
    rw [List.foldl_cons, hstep, ih (fun y hy => h y (List.mem_cons_of_mem x hy)),
      sumIntOf_cons, hn]
    have harith : i + ↑n + sumIntOf l = i + ((some (n : Int)).getD 0 + sumIntOf l) := by
      simp
      ring
    rw [harith]

theorem renderOffset_allInt {o : StackOffset} (h : allIntOff o) :
    renderOffset o = intRenderFix (offNet o) := by
  unfold renderOffset
  simp only [foldl_renderStep_false h.1, foldl_renderStep_true h.2]
  have harith : (0 : Int) - sumIntOf o.popped + sumIntOf o.pushed = offNet o := by
    unfold offNet
    ring
  rw [harith]
  simp [intRenderFix]

theorem to_c_fst (o : StackOffset) : (o.to_c).1 = o.simplify := rfl

theorem to_c_snd (o : StackOffset) : (o.to_c).2 = renderOffset o.simplify := rfl

theorem toCString_allInt {o : StackOffset} (h : allIntOff o) :
    o.toCString = intRenderFix (offNet o) := by
  unfold StackOffset.toCString
  rw [to_c_snd, renderOffset_allInt (simplify_allInt h), simplify_net]

theorem toCString_zero {o : StackOffset} (h : ∀ x, cnt x o.popped = cnt x o.pushed) :
    o.toCString = "0" := by
  by_cases hp : o.popped = []
  · have hq : o.pushed = [] := by
      apply eq_nil_of_cnt_eq_zero
      intro x
      have hx := h x
      rw [hp] at hx
      simpa [cnt] using hx.symm
    obtain ⟨po, pu⟩ := o
    simp only at hp hq
    subst hp
    subst hq
    decide
  · by_cases hq : o.pushed = []
    · exfalso
      apply hp
      apply eq_nil_of_cnt_eq_zero
      intro x
      have hx := h x
      rw [hq] at hx
      simpa [cnt] using hx
    · have h1 : o.simplify.popped = [] := by
        apply eq_nil_of_cnt_eq_zero
        intro x
        have := (simplify_cnt o x).1
        have hx := h x
        omega
      have h2 : o.simplify.pushed = [] := by
        apply eq_nil_of_cnt_eq_zero
        intro x
        have := (simplify_cnt o x).2
        have hx := h x
        omega
      have hs : o.simplify = ⟨[], []⟩ := by
        have : o.simplify = ⟨o.simplify.popped, o.simplify.pushed⟩ := rfl
        rw [this, h1, h2]
      unfold StackOffset.toCString
      rw [to_c_snd, hs]
      decide

/-! ### Effective sizes that are integer literals -/

theorem dropWhile_append_singleton {p : Char → Bool} {c : Char} (hc : p c = false) :
    ∀ l : List Char, ∃ m, (l ++ [c]).dropWhile p = m ++ [c]
  | [] => ⟨[], by simp [List.dropWhile_cons, hc]⟩
  | a :: l => by
    by_cases ha : p a
    · obtain ⟨m, hm⟩ := dropWhile_append_singleton hc l
      exact ⟨m, by simp [List.dropWhile_cons, ha, hm]⟩
    · exact ⟨a :: l, by simp [List.dropWhile_cons, ha]⟩

theorem pyStrip_paren (l : List Char) : ∃ m, pyStrip ('(' :: l) = '(' :: m := by
  unfold pyStrip pyStripRight
  have h1 : isPySpace '(' = false := rfl
  rw [List.dropWhile_cons, h1]
  simp only [Bool.false_eq_true, if_false, List.reverse_cons]
  obtain ⟨m, hm⟩ := dropWhile_append_singleton (p := isPySpace) h1 l.reverse
  rw [hm, List.reverse_append]
  exact ⟨m.reverse, rfl⟩

theorem pyInt?_of_append_paren (x : String) : pyInt? ("(" ++ x) = none := by
  unfold pyInt?
  have hd : ("(" ++ x).data = '(' :: x.data := by
    rw [String.data_append]
    rfl
  rw [hd]
  obtain ⟨m, hm⟩ := pyStrip_paren x.data
  rw [hm]
  have hplus : ('(' = '+') = False := by decide
  have hminus : ('(' = '-') = False := by decide
  simp only [hplus, hminus, if_false]
  have hdig : pyDigits? ('(' :: m) = none := rfl
  rw [hdig]
  rfl

theorem var_size_eq_size_of_int {v : StackItem} (hv : (pyInt? (var_size v)).isSome) :
    var_size v = v.size := by
  by_cases h1 : v.condition ≠ ""
  · exfalso
    have hnone : pyInt? (var_size v) = none := by
      unfold var_size
      rw [if_pos h1]
      split_ifs with h2
      · rw [String.append_assoc]
        exact pyInt?_of_append_paren _
      · rw [show ("((" : String) = "(" ++ "(" from rfl]
        simp only [String.append_assoc]
        exact pyInt?_of_append_paren _
    rw [hnone] at hv
    simp at hv
  · unfold var_size
    rw [if_neg h1]

/-! ### Effect of offset operations on integer contents and net value -/

theorem offNet_pop (o : StackOffset) (v : StackItem) :
    offNet (o.pop v) = offNet o - (pyInt? (var_size v)).getD 0 := by
  unfold offNet StackOffset.pop
  dsimp
  rw [sumIntOf_append, sumIntOf_cons, sumIntOf_nil]
  ring

theorem offNet_push (o : StackOffset) (v : StackItem) :
    offNet (o.push v) = offNet o + (pyInt? (var_size v)).getD 0 := by
  unfold offNet StackOffset.push
  dsimp
  rw [sumIntOf_append, sumIntOf_cons, sumIntOf_nil]
  ring

theorem allIntOff_pop {o : StackOffset} {v : StackItem} (h : allIntOff o)
    (hv : (pyInt? (var_size v)).isSome) : allIntOff (o.pop v) := by
  refine ⟨?_, h.2⟩
  intro x hx
  rcases List.mem_append.mp hx with hx | hx
  · exact h.1 x hx
  · rw [List.mem_singleton.mp hx]
    exact hv

theorem allIntOff_push {o : StackOffset} {v : StackItem} (h : allIntOff o)
    (hv : (pyInt? (var_size v)).isSome) : allIntOff (o.push v) := by
  refine ⟨h.1, ?_⟩
  intro x hx
  rcases List.mem_append.mp hx with hx | hx
  · exact h.2 x hx
  · rw [List.mem_singleton.mp hx]
    exact hv

/-! ### The integer-displacement invariant of the simulator -/

theorem mem_of_getLast?_eq {l : List StackItem} {a : StackItem}
    (h : l.getLast? = some a) : a ∈ l := by
  obtain ⟨m, rfl⟩ := List.getLast?_eq_some_iff.mp h
  exact List.mem_append_right m (List.mem_singleton.mpr rfl)

theorem vars_eq_dropLast_append {l : List StackItem} {a : StackItem}
    (h : l.getLast? = some a) : l = l.dropLast ++ [a] := by
  obtain ⟨m, rfl⟩ := List.getLast?_eq_some_iff.mp h
  rw [List.dropLast_concat]

theorem stackInv_init : StackInvInt Stack.init := by
  refine ⟨⟨?_, ?_⟩, ⟨?_, ?_⟩, ?_, ?_⟩ <;> simp [Stack.init, allIntList, offNet, sumIntOf]

theorem stackInv_push {s : Stack} {v : StackItem} (h : StackInvInt s)
    (hv : (pyInt? (var_size v)).isSome) : StackInvInt (s.push v).1 := by
  obtain ⟨htop, hbase, hvars, hnet⟩ := h
  have hsum : sumIntOf ((s.vars ++ [v]).map var_size) =
      sumIntOf (s.vars.map var_size) + (pyInt? (var_size v)).getD 0 := by
    rw [List.map_append, sumIntOf_append]
    simp [sumIntOf_cons, sumIntOf_nil]
  have hmem : ∀ u ∈ s.vars ++ [v], (pyInt? (var_size u)).isSome := by
    intro u hu
    rcases List.mem_append.mp hu with hu | hu
    · exact hvars u hu
    · rw [List.mem_singleton.mp hu]
      exact hv
  unfold Stack.push
  split_ifs with hc
  · dsimp
    refine ⟨allIntOff_push (simplify_allInt htop) hv, hbase, hmem, ?_⟩
    rw [offNet_push, to_c_fst, simplify_net, hnet, hsum]
    ring
  · dsimp
    refine ⟨allIntOff_push htop hv, hbase, hmem, ?_⟩
    rw [offNet_push, hnet, hsum]
    ring

theorem stackInv_pop {s : Stack} {v : StackItem} {s' : Stack} {out : String}
    (h : StackInvInt s) (hv : (pyInt? (var_size v)).isSome)
    (he : s.pop v = (s', PopResult.ok out)) : StackInvInt s' := by
  obtain ⟨htop, hbase, hvars, hnet⟩ := h
  unfold Stack.pop at he
  cases hl : s.vars.getLast? with
  | some popd =>
    rw [hl] at he
    dsimp only at he
    have hvd := vars_eq_dropLast_append hl
    have hpopd : (pyInt? (var_size popd)).isSome := hvars popd (mem_of_getLast?_eq hl)
    have hsub : ∀ u ∈ s.vars.dropLast, (pyInt? (var_size u)).isSome := fun u hu =>
      hvars u (by rw [hvd]; exact List.mem_append_left _ hu)
    have hsum : sumIntOf (s.vars.map var_size) =
        sumIntOf (s.vars.dropLast.map var_size) + (pyInt? (var_size popd)).getD 0 := by
      conv_lhs => rw [hvd]
      rw [List.map_append, sumIntOf_append]
      simp [sumIntOf_cons, sumIntOf_nil]
    by_cases h1 : popd.size ≠ v.size
    · rw [if_pos h1] at he
      simp at he
    · rw [if_neg h1] at he
      have hsz : popd.size = v.size := not_ne_iff.mp h1
      have hval : (pyInt? (var_size popd)).getD 0 = (pyInt? (var_size v)).getD 0 := by
        rw [var_size_eq_size_of_int hpopd, var_size_eq_size_of_int hv, hsz]
      have hnet' : offNet (s.top_offset.pop v) =
          offNet s.base_offset + sumIntOf (s.vars.dropLast.map var_size) := by
        rw [offNet_pop, hnet, hsum]
        omega
      by_cases h2 : popd.name = v.name
      · rw [if_pos h2] at he
        injection he with hes hres
        subst hes
        exact ⟨allIntOff_pop htop hv, hbase, hsub, hnet'⟩
      · rw [if_neg h2] at he
        by_cases h3 : popd.name = "unused"
        · rw [if_pos h3] at he
          injection he with hes hres
          subst hes
          refine ⟨simplify_allInt (allIntOff_pop htop hv), hbase, hsub, ?_⟩
          show offNet (s.top_offset.pop v).to_c.1 = _
          rw [to_c_fst, simplify_net]
          exact hnet'
        · rw [if_neg h3] at he
          by_cases h4 : v.name = "unused"
          · rw [if_pos h4] at he
            injection he with hes hres
            subst hes
            exact ⟨allIntOff_pop htop hv, hbase, hsub, hnet'⟩
          · rw [if_neg h4] at he
            injection he with hes hres
            subst hes
            exact ⟨allIntOff_pop htop hv, hbase, hsub, hnet'⟩
  | none =>
    rw [hl] at he
    dsimp only at he
    have hnil : s.vars = [] := List.getLast?_eq_none_iff.mp hl
    have hnet0 : offNet s.top_offset = offNet s.base_offset := by
      rw [hnil] at hnet
      simpa [sumIntOf_nil] using hnet
    have hnet' : offNet (s.top_offset.pop v) =
        offNet (s.base_offset.pop v) + sumIntOf (s.vars.map var_size) := by
      rw [offNet_pop, offNet_pop, hnil]
      simp only [List.map_nil, sumIntOf_nil]
      omega
    by_cases h1 : v.name = "unused"
    · rw [if_pos h1] at he
      injection he with hes hres
      subst hes
      exact ⟨allIntOff_pop htop hv, allIntOff_pop hbase hv, hvars, hnet'⟩
    · rw [if_neg h1] at he
      injection he with hes hres
      subst hes
      refine ⟨allIntOff_pop htop hv, simplify_allInt (allIntOff_pop hbase hv), hvars, ?_⟩
      show offNet (s.top_offset.pop v) = offNet (s.base_offset.pop v).to_c.1 + _
      rw [to_c_fst, simplify_net]
      exact hnet'

theorem stackInv_run (ops : List Op) : ∀ (s0 s : Stack) (outs : List String),
    (∀ op ∈ ops, (pyInt? (var_size (Op.item op))).isSome) →
    StackInvInt s0 → runStack s0 ops = some (s, outs) → StackInvInt s := by
  induction ops with
  | nil =>
    intro s0 s outs _ h0 hr
    simp only [runStack, Option.some.injEq, Prod.mk.injEq] at hr
    rw [← hr.1]
    exact h0
  | cons op ops ih =>
    intro s0 s outs hall h0 hr
    have hop : (pyInt? (var_size (Op.item op))).isSome :=
      hall op (List.mem_cons_self op ops)
    have hall' : ∀ o ∈ ops, (pyInt? (var_size (Op.item o))).isSome := fun o ho =>
      hall o (List.mem_cons_of_mem op ho)
    cases op with
    | pushOp v =>
      simp only [runStack] at hr
      obtain ⟨⟨s1, outs1⟩, hr1, hr2⟩ := Option.map_eq_some'.mp hr
      obtain ⟨hs, -⟩ := Prod.mk.injEq .. ▸ hr2
      rw [← hs]
      exact ih (s0.push v).1 s1 outs1 hall' (stackInv_push h0 hop) hr1
    | popOp v =>
      simp only [runStack] at hr
      rcases hpv : s0.pop v with ⟨s1, res⟩
      rw [hpv] at hr
      cases res with
      | ok out1 =>
        dsimp only at hr
        obtain ⟨⟨s2, outs2⟩, hr1, hr2⟩ := Option.map_eq_some'.mp hr
        obtain ⟨hs, -⟩ := Prod.mk.injEq .. ▸ hr2
        rw [← hs]
        exact ih s1 s2 outs2 hall' (stackInv_pop h0 hop hpv) hr1
      | sizeMismatch msg =>
        dsimp only at hr
        cases hr

theorem flushFold_inv (l : List StackItem) : ∀ (b : StackOffset) (outs : List String),
    allIntOff b → (∀ v ∈ l, (pyInt? (var_size v)).isSome) →
    allIntOff (l.foldl flushStep (b, outs)).1 ∧
    offNet (l.foldl flushStep (b, outs)).1 = offNet b + sumIntOf (l.map var_size) := by
  induction l with
  | nil =>
    intro b outs hb _
    refine ⟨hb, ?_⟩
    simp [sumIntOf_nil]
  | cons v l ih =>
    intro b outs hb hall
    have hv := hall v (List.mem_cons_self v l)
    have hall' : ∀ u ∈ l, (pyInt? (var_size u)).isSome := fun u hu =>
      hall u (List.mem_cons_of_mem v hu)
    rw [List.foldl_cons]
    rcases hfs : flushStep (b, outs) v with ⟨b', outs'⟩
    have hb' : b' = b.push v ∨ b' = b.simplify.push v := by
      unfold flushStep at hfs
      split_ifs at hfs <;> injection hfs with h1 h2 <;>
        first
          | exact Or.inl h1.symm
          | exact Or.inr (by rw [← h1, to_c_fst])
    have hbint : allIntOff b' := by
      rcases hb' with rfl | rfl
      · exact allIntOff_push hb hv
      · exact allIntOff_push (simplify_allInt hb) hv
    have hbnet : offNet b' = offNet b + (pyInt? (var_size v)).getD 0 := by
      rcases hb' with rfl | rfl
      · exact offNet_push b v
      · rw [offNet_push, simplify_net]
    obtain ⟨hfin, hfnet⟩ := ih b' outs' hbint hall'
    refine ⟨hfin, ?_⟩
    rw [hfnet, hbnet, List.map_cons, sumIntOf_cons]
    ring

theorem flush_strings_eq {s : Stack} (h : StackInvInt s) :
    ((s.vars.foldl flushStep (s.base_offset, [])).1.to_c).2 = (s.top_offset.to_c).2 := by
  obtain ⟨htop, hbase, hvars, hnet⟩ := h
  obtain ⟨hb', hn'⟩ := flushFold_inv s.vars s.base_offset [] hbase hvars
  have hbs : ((s.vars.foldl flushStep (s.base_offset, [])).1.to_c).2 =
      intRenderFix (offNet s.top_offset) := by
    have := toCString_allInt hb'
    rw [StackOffset.toCString] at this
    rw [this, hn', hnet]
  have hts : ((s.top_offset.to_c).2) = intRenderFix (offNet s.top_offset) := by
    have := toCString_allInt htop
    rw [StackOffset.toCString] at this
    rw [this]
  rw [hbs, hts]

theorem flush_isSome {s : Stack} (h : StackInvInt s) : (s.flush).isSome := by
  have heq := flush_strings_eq h
  unfold Stack.flush
  simp only [heq, ne_eq, not_true_eq_false, if_false]
  simp

/-! ### Count balance of the top offset along a run -/

theorem simplify_cntBal (o : StackOffset) (x : String) :
    (cnt x o.simplify.popped : Int) - cnt x o.simplify.pushed =
      (cnt x o.popped : Int) - cnt x o.pushed := by
  have c1 := (simplify_cnt o x).1
  have c2 := (simplify_cnt o x).2
  omega

theorem cntBal_offset_pop (o : StackOffset) (v : StackItem) (x : String) :
    (cnt x (o.pop v).popped : Int) - cnt x (o.pop v).pushed =
      ((cnt x o.popped : Int) - cnt x o.pushed) +
        (if var_size v = x then 1 else 0) := by
  unfold StackOffset.pop
  dsimp
  rw [cnt_append]
  by_cases h : var_size v = x <;> simp [cnt, h] <;> omega

theorem cntBal_offset_push (o : StackOffset) (v : StackItem) (x : String) :
    (cnt x (o.push v).popped : Int) - cnt x (o.push v).pushed =
      ((cnt x o.popped : Int) - cnt x o.pushed) -
        (if var_size v = x then 1 else 0) := by
  unfold StackOffset.push
  dsimp
  rw [cnt_append]
  by_cases h : var_size v = x <;> simp [cnt, h] <;> omega

theorem pop_inflight_effect {s : Stack} {v : StackItem} (hne : s.vars ≠ []) :
    (s.pop v).1.base_offset = s.base_offset ∧
    ((s.pop v).1.top_offset = s.top_offset.pop v ∨
     (s.pop v).1.top_offset = (s.top_offset.pop v).simplify) := by
  unfold Stack.pop
  cases hl : s.vars.getLast? with
  | none => exact absurd (List.getLast?_eq_none_iff.mp hl) hne
  | some popd =>
    dsimp only
    by_cases h1 : popd.size ≠ v.size
    · rw [if_pos h1]
      exact ⟨rfl, Or.inl rfl⟩
    · rw [if_neg h1]
      by_cases h2 : popd.name = v.name
      · rw [if_pos h2]
        exact ⟨rfl, Or.inl rfl⟩
      · rw [if_neg h2]
        by_cases h3 : popd.name = "unused"
        · rw [if_pos h3]
          refine ⟨rfl, Or.inr ?_⟩
          show (s.top_offset.pop v).to_c.1 = _
          rw [to_c_fst]
        · rw [if_neg h3]
          by_cases h4 : v.name = "unused"
          · rw [if_pos h4]
            exact ⟨rfl, Or.inl rfl⟩
          · rw [if_neg h4]
            exact ⟨rfl, Or.inl rfl⟩

theorem push_effect (s : Stack) (v : StackItem) :
    (s.push v).1.base_offset = s.base_offset ∧
    ((s.push v).1.top_offset = s.top_offset.push v ∨
     (s.push v).1.top_offset = s.top_offset.simplify.push v) := by
  unfold Stack.push
  split_ifs with hc
  · refine ⟨rfl, Or.inr ?_⟩
    show ((s.top_offset.to_c).1.push v) = _
    rw [to_c_fst]
  · exact ⟨rfl, Or.inl rfl⟩

theorem pop_top_effect (s : Stack) (v : StackItem) :
    (s.pop v).1.top_offset = s.top_offset.pop v ∨
    (s.pop v).1.top_offset = (s.top_offset.pop v).simplify := by
  unfold Stack.pop
  cases hl : s.vars.getLast? with
  | none =>
    dsimp only
    by_cases h1 : v.name = "unused"
    · rw [if_pos h1]
      exact Or.inl rfl
    · rw [if_neg h1]
      exact Or.inl rfl
  | some popd =>
    dsimp only
    by_cases h1 : popd.size ≠ v.size
    · rw [if_pos h1]
      exact Or.inl rfl
    · rw [if_neg h1]
      by_cases h2 : popd.name = v.name
      · rw [if_pos h2]
        exact Or.inl rfl
      · rw [if_neg h2]
        by_cases h3 : popd.name = "unused"
        · rw [if_pos h3]
          refine Or.inr ?_
          show (s.top_offset.pop v).to_c.1 = _
          rw [to_c_fst]
        · rw [if_neg h3]
          by_cases h4 : v.name = "unused"
          · rw [if_pos h4]
            exact Or.inl rfl
          · rw [if_neg h4]
            exact Or.inl rfl

theorem pop_bal (s : Stack) (v : StackItem) (x : String) :
    (cnt x (s.pop v).1.top_offset.popped : Int) - cnt x (s.pop v).1.top_offset.pushed =
      ((cnt x s.top_offset.popped : Int) - cnt x s.top_offset.pushed) +
        (if var_size v = x then 1 else 0) := by
  rcases pop_top_effect s v with h | h <;> rw [h]
  · exact cntBal_offset_pop s.top_offset v x
  · rw [simplify_cntBal]
    exact cntBal_offset_pop s.top_offset v x

theorem push_bal (s : Stack) (v : StackItem) (x : String) :
    (cnt x (s.push v).1.top_offset.popped : Int) - cnt x (s.push v).1.top_offset.pushed =
      ((cnt x s.top_offset.popped : Int) - cnt x s.top_offset.pushed) -
        (if var_size v = x then 1 else 0) := by
  rcases (push_effect s v).2 with h | h <;> rw [h]
  · exact cntBal_offset_push s.top_offset v x
  · rw [cntBal_offset_push, simplify_cntBal]

theorem popTerms_pop_cons (v : StackItem) (ops : List Op) :
    popTerms (Op.popOp v :: ops) = var_size v :: popTerms ops := rfl

theorem popTerms_push_cons (v : StackItem) (ops : List Op) :
    popTerms (Op.pushOp v :: ops) = popTerms ops := rfl

theorem pushTerms_pop_cons (v : StackItem) (ops : List Op) :
    pushTerms (Op.popOp v :: ops) = pushTerms ops := rfl

theorem pushTerms_push_cons (v : StackItem) (ops : List Op) :
    pushTerms (Op.pushOp v :: ops) = var_size v :: pushTerms ops := rfl

theorem c7_run (ops : List Op) : ∀ (s0 s : Stack) (outs : List String),
    runStack s0 ops = some (s, outs) →
    (∀ x, (cnt x s.top_offset.popped : Int) - cnt x s.top_offset.pushed =
      ((cnt x s0.top_offset.popped : Int) - cnt x s0.top_offset.pushed) +
      ((cnt x (popTerms ops) : Int) - cnt x (pushTerms ops))) ∧
    (popsInFlightOk s0 ops = true → s.base_offset = s0.base_offset) := by
  induction ops with
  | nil =>
    intro s0 s outs hr
    simp only [runStack, Option.some.injEq, Prod.mk.injEq] at hr
    rw [← hr.1]
    refine ⟨fun x => ?_, fun _ => rfl⟩
    simp [popTerms, pushTerms, cnt]
  | cons op ops ih =>
    intro s0 s outs hr
    cases op with
    | pushOp v =>
      simp only [runStack] at hr
      obtain ⟨⟨s1, outs1⟩, hr1, hr2⟩ := Option.map_eq_some'.mp hr
      obtain ⟨hs, -⟩ := Prod.mk.injEq .. ▸ hr2
      rw [← hs]
      obtain ⟨hbal, hbase⟩ := ih (s0.push v).1 s1 outs1 hr1
      refine ⟨fun x => ?_, fun hchk => ?_⟩
      · rw [hbal x, push_bal s0 v x, popTerms_push_cons, pushTerms_push_cons]
        by_cases h : var_size v = x
        · rw [h, cnt_cons_self, if_pos rfl]
          omega
        · rw [cnt_cons_ne h, if_neg h]
          omega
      · simp only [popsInFlightOk] at hchk
        exact (hbase hchk).trans (push_effect s0 v).1
    | popOp v =>
      simp only [runStack] at hr
      rcases hpv : s0.pop v with ⟨s1, res⟩
      rw [hpv] at hr
      cases res with
      | sizeMismatch msg =>
        dsimp only at hr
        cases hr
      | ok out1 =>
        dsimp only at hr
        obtain ⟨⟨s2, outs2⟩, hr1, hr2⟩ := Option.map_eq_some'.mp hr
        obtain ⟨hs, -⟩ := Prod.mk.injEq .. ▸ hr2
        rw [← hs]
        obtain ⟨hbal, hbase⟩ := ih s1 s2 outs2 hr1
        have hbal0 := pop_bal s0 v
        rw [hpv] at hbal0
        refine ⟨fun x => ?_, fun hchk => ?_⟩
        · rw [hbal x, hbal0 x, popTerms_pop_cons, pushTerms_pop_cons]
          by_cases h : var_size v = x
          · rw [h, cnt_cons_self, if_pos rfl]
            omega
          · rw [cnt_cons_ne h, if_neg h]
            omega
        · simp only [popsInFlightOk, Bool.and_eq_true] at hchk
          have hne : s0.vars ≠ [] := by
            intro hnil
            rw [hnil] at hchk
            simp at hchk
          have hchk2 : popsInFlightOk (s0.pop v).1 ops = true := hchk.2
          rw [hpv] at hchk2
          have hb := (pop_inflight_effect (v := v) hne).1
          rw [hpv] at hb
          exact (hbase hchk2).trans hb

/-! ### Claims -/

theorem mem_insertDef_self (l : List String) (x : String) : x ∈ insertDef l x := by
  unfold insertDef
  split_ifs with h
  · exact h
  · exact List.mem_append_right l (List.mem_singleton.mpr rfl)

/-- Claim C2 (amended): after `flush` returns, the in-flight variable list is
empty and all three offset accumulators (top, base, peek) are empty, but the
set of already-defined variable names is left unchanged — `flush` does not
clear `defined`, so the state equals the empty initial state only when no name
had been defined. -/
theorem C2_amended_flush_resets_except_defined {s r : Stack} {outs : List String}
    (h : s.flush = some (r, outs)) :
    r.vars = [] ∧ r.top_offset = ⟨[], []⟩ ∧ r.base_offset = ⟨[], []⟩ ∧
    r.peek_offset = ⟨[], []⟩ ∧ r.defined = s.defined := by
  unfold Stack.flush at h
  dsimp only at h
  split_ifs at h
  all_goals
    first
      | exact Option.noConfusion h
      | (simp only [Option.some.injEq, Prod.mk.injEq] at h
         rw [← h.1]
         exact ⟨rfl, rfl, rfl, rfl, rfl⟩)

/-- Claim C2, counterexample: popping `v` (size 1) from an empty stack defines
`v`; the subsequent `flush` succeeds but leaves `defined = {v}`, which is not
the empty `defined` set of the initial state. -/
theorem C2_counterexample :
    ((Stack.init.pop (itemN "v" "1")).1.flush).map (fun p => p.1.defined) =
      some ["v"] ∧ (["v"] : List String) ≠ [] := by
  constructor
  · decide
  · decide

theorem C2_amended_witness :
    (Stack.mk ⟨["1"], []⟩ ⟨["1"], []⟩ ⟨["1"], []⟩ [] ["v"]).flush =
      some (Stack.mk ⟨[], []⟩ ⟨[], []⟩ ⟨[], []⟩ [] ["v"],
        ["stack_pointer += -1;\n"]) ∧
    ((Stack.mk ⟨[], []⟩ ⟨[], []⟩ ⟨[], []⟩ [] ["v"]).vars = [] ∧
      (Stack.mk ⟨[], []⟩ ⟨[], []⟩ ⟨[], []⟩ [] ["v"]).top_offset = ⟨[], []⟩ ∧
      (Stack.mk ⟨[], []⟩ ⟨[], []⟩ ⟨[], []⟩ [] ["v"]).base_offset = ⟨[], []⟩ ∧
      (Stack.mk ⟨[], []⟩ ⟨[], []⟩ ⟨[], []⟩ [] ["v"]).peek_offset = ⟨[], []⟩ ∧
      (Stack.mk ⟨[], []⟩ ⟨[], []⟩ ⟨[], []⟩ [] ["v"]).defined =
        (Stack.mk ⟨["1"], []⟩ ⟨["1"], []⟩ ⟨["1"], []⟩ [] ["v"]).defined) :=
  ⟨by decide,
    @C2_amended_flush_resets_except_defined
      (Stack.mk ⟨["1"], []⟩ ⟨["1"], []⟩ ⟨["1"], []⟩ [] ["v"])
      (Stack.mk ⟨[], []⟩ ⟨[], []⟩ ⟨[], []⟩ [] ["v"])
      ["stack_pointer += -1;\n"] (by decide)⟩

/-- Claim C3: after `simplify` runs, no expression occurs in both the popped
and the pushed list, and each residual list is the original list with exactly
the multiset intersection removed (stated via occurrence counts). -/
theorem C3_simplify_removes_multiset_intersection (o : StackOffset) (x : String) :
    cnt x o.simplify.popped =
      cnt x o.popped - min (cnt x o.popped) (cnt x o.pushed) ∧
    cnt x o.simplify.pushed =
      cnt x o.pushed - min (cnt x o.popped) (cnt x o.pushed) ∧
    ¬(x ∈ o.simplify.popped ∧ x ∈ o.simplify.pushed) := by
  have c1 := (simplify_cnt o x).1
  have c2 := (simplify_cnt o x).2
  exact ⟨by omega, by omega, simplify_disjoint o x⟩

theorem C3_witness :
    cnt "a" (StackOffset.mk ["1", "a"] ["a"]).simplify.popped =
      cnt "a" (StackOffset.mk ["1", "a"] ["a"]).popped -
        min (cnt "a" (StackOffset.mk ["1", "a"] ["a"]).popped)
          (cnt "a" (StackOffset.mk ["1", "a"] ["a"]).pushed) ∧
    cnt "a" (StackOffset.mk ["1", "a"] ["a"]).simplify.pushed =
      cnt "a" (StackOffset.mk ["1", "a"] ["a"]).pushed -
        min (cnt "a" (StackOffset.mk ["1", "a"] ["a"]).popped)
          (cnt "a" (StackOffset.mk ["1", "a"] ["a"]).pushed) ∧
    ¬("a" ∈ (StackOffset.mk ["1", "a"] ["a"]).simplify.popped ∧
      "a" ∈ (StackOffset.mk ["1", "a"] ["a"]).simplify.pushed) :=
  C3_simplify_removes_multiset_intersection ⟨["1", "a"], ["a"]⟩ "a"

/-- Claim C4: on an empty stack, pushing a non-array slot `x` (name not
`unused`) and then popping a slot `y` (name distinct from `x` and from
`unused`) of the same declared size emits nothing at push time and exactly the
aliasing assignment `y = x;` at pop time — no stack_pointer access at all. -/
theorem C4_push_then_pop_aliases (x y : StackItem)
    (hx1 : x.isArray = false) (hx2 : x.name ≠ "unused")
    (hy1 : y.name ≠ "unused") (hy2 : y.name ≠ x.name) (hsz : x.size = y.size) :
    (Stack.init.push x).2 = "" ∧
    ((Stack.init.push x).1.pop y).2 =
      PopResult.ok (y.name ++ " = " ++ x.name ++ ";\n") := by
  have hpush : (Stack.init.push x).1 =
      ⟨⟨[], [var_size x]⟩, ⟨[], []⟩, ⟨[], []⟩, [x], []⟩ := by
    unfold Stack.push Stack.init
    rw [if_neg (by simp [hx1])]
    rfl
  constructor
  · unfold Stack.push
    rw [if_neg (by simp [hx1])]
  · rw [hpush]
    unfold Stack.pop
    rw [show ([x] : List StackItem).getLast? = some x from rfl]
    dsimp only
    rw [if_neg (not_ne_iff.mpr hsz), if_neg (fun h => hy2 h.symm), if_neg hx2,
      if_neg hy1]

theorem C4_witness :
    (itemN "x" "1").isArray = false ∧
    (itemN "x" "1").name ≠ "unused" ∧
    (itemN "y" "1").name ≠ "unused" ∧
    (itemN "y" "1").name ≠ (itemN "x" "1").name ∧
    (itemN "x" "1").size = (itemN "y" "1").size ∧
    ((Stack.init.push (itemN "x" "1")).2 = "" ∧
      ((Stack.init.push (itemN "x" "1")).1.pop (itemN "y" "1")).2 =
        PopResult.ok ((itemN "y" "1").name ++ " = " ++ (itemN "x" "1").name ++ ";\n")) :=
  ⟨by decide, by decide, by decide, by decide, by decide,
    C4_push_then_pop_aliases (itemN "x" "1") (itemN "y" "1") (by decide)
      (by decide) (by decide) (by decide) (by decide)⟩

/-- Claim C5: when `pop` consumes an in-flight slot whose declared size string
differs from the popping slot's, it raises `SizeMismatch` (with the source's
message) and produces no code string for that pop. -/
theorem C5_pop_size_mismatch_raises (s : Stack) (v p : StackItem)
    (l : List StackItem) (hvars : s.vars = l ++ [p]) (hsz : p.size ≠ v.size) :
    (s.pop v).2 = PopResult.sizeMismatch
      ("Size mismatch when popping '" ++ p.name ++ "' from stack to assign to " ++
        v.name ++ ". Expected " ++ v.size ++ " got " ++ p.size) := by
  unfold Stack.pop
  rw [hvars, List.getLast?_concat]
  dsimp only
  rw [if_pos hsz]

theorem C5_witness :
    (Stack.mk ⟨[], []⟩ ⟨[], []⟩ ⟨[], []⟩ [itemN "a" "2"] []).vars =
      [] ++ [itemN "a" "2"] ∧
    (itemN "a" "2").size ≠ (itemN "b" "1").size ∧
    ((Stack.mk ⟨[], []⟩ ⟨[], []⟩ ⟨[], []⟩ [itemN "a" "2"] []).pop
        (itemN "b" "1")).2 =
      PopResult.sizeMismatch
        ("Size mismatch when popping '" ++ (itemN "a" "2").name ++
          "' from stack to assign to " ++ (itemN "b" "1").name ++ ". Expected " ++
          (itemN "b" "1").size ++ " got " ++ (itemN "a" "2").size) :=
  ⟨by decide, by decide,
    C5_pop_size_mismatch_raises
      (Stack.mk ⟨[], []⟩ ⟨[], []⟩ ⟨[], []⟩ [itemN "a" "2"] [])
      (itemN "b" "1") (itemN "a" "2") [] (by decide) (by decide)⟩

/-- Claim C6: when `pop` consumes an in-flight slot named `unused` and the
popping slot `v` (name not `unused`) has the same declared size, it emits a
direct read of `stack_pointer` at the top offset's rendered displacement into
`v` (not a name-to-name aliasing assignment) and adds `v`'s name to the
defined set. -/
theorem C6_pop_unused_producer_reads_memory (s : Stack) (v p : StackItem)
    (l : List StackItem) (hvars : s.vars = l ++ [p])
    (hp : p.name = "unused") (hsz : p.size = v.size) (hv : v.name ≠ "unused") :
    (s.pop v).2 = PopResult.ok (v.name ++ " = " ++
      (if v.isArray then "&" else "") ++ "stack_pointer[" ++
      ((s.top_offset.pop v).to_c).2 ++ "];\n") ∧
    v.name ∈ (s.pop v).1.defined := by
  unfold Stack.pop
  rw [hvars, List.getLast?_concat]
  dsimp only
  rw [if_neg (not_ne_iff.mpr hsz), if_neg (fun h => hv (h.symm.trans hp)),
    if_pos hp]
  exact ⟨rfl, mem_insertDef_self s.defined v.name⟩

theorem C6_witness :
    (Stack.mk ⟨[], []⟩ ⟨[], []⟩ ⟨[], []⟩ [itemN "unused" "1"] []).vars =
      [] ++ [itemN "unused" "1"] ∧
    (itemN "unused" "1").name = "unused" ∧
    (itemN "unused" "1").size = (itemN "v" "1").size ∧
    (itemN "v" "1").name ≠ "unused" ∧
    (((Stack.mk ⟨[], []⟩ ⟨[], []⟩ ⟨[], []⟩ [itemN "unused" "1"] []).pop
          (itemN "v" "1")).2 =
        PopResult.ok ((itemN "v" "1").name ++ " = " ++
          (if (itemN "v" "1").isArray then "&" else "") ++ "stack_pointer[" ++
          (((Stack.mk ⟨[], []⟩ ⟨[], []⟩ ⟨[], []⟩ [itemN "unused" "1"]
              []).top_offset.pop (itemN "v" "1")).to_c).2 ++ "];\n") ∧
      (itemN "v" "1").name ∈
        ((Stack.mk ⟨[], []⟩ ⟨[], []⟩ ⟨[], []⟩ [itemN "unused" "1"] []).pop
          (itemN "v" "1")).1.defined) :=
  ⟨by decide, by decide, by decide, by decide,
    C6_pop_unused_producer_reads_memory
      (Stack.mk ⟨[], []⟩ ⟨[], []⟩ ⟨[], []⟩ [itemN "unused" "1"] [])
      (itemN "v" "1") (itemN "unused" "1") [] (by decide) (by decide)
      (by decide) (by decide)⟩

/-- Claim C10: `pop` is not atomic on error: when it raises `SizeMismatch`,
the pop has already been recorded against the top offset (and against the peek
offset when the slot is not a peek) and the consumed in-flight slot has
already been removed from the in-flight list; nothing is rolled back. -/
theorem C10_pop_not_atomic_on_mismatch (s : Stack) (v p : StackItem)
    (l : List StackItem) (hvars : s.vars = l ++ [p]) (hsz : p.size ≠ v.size) :
    s.pop v = ({ s with
          top_offset := s.top_offset.pop v,
          peek_offset := if v.peek then s.peek_offset else s.peek_offset.pop v,
          vars := l },
      PopResult.sizeMismatch ("Size mismatch when popping '" ++ p.name ++
        "' from stack to assign to " ++ v.name ++ ". Expected " ++ v.size ++
        " got " ++ p.size)) := by
  unfold Stack.pop
  rw [hvars, List.getLast?_concat]
  dsimp only
  rw [if_pos hsz, List.dropLast_concat]

theorem C10_witness :
    (Stack.mk ⟨["9"], []⟩ ⟨[], []⟩ ⟨[], []⟩ [itemN "p" "3"] ["w"]).vars =
      [] ++ [itemN "p" "3"] ∧
    (itemN "p" "3").size ≠ (itemN "q" "4").size ∧
    (Stack.mk ⟨["9"], []⟩ ⟨[], []⟩ ⟨[], []⟩ [itemN "p" "3"] ["w"]).pop
        (itemN "q" "4") =
      ({ Stack.mk ⟨["9"], []⟩ ⟨[], []⟩ ⟨[], []⟩ [itemN "p" "3"] ["w"] with
          top_offset := (Stack.mk ⟨["9"], []⟩ ⟨[], []⟩ ⟨[], []⟩ [itemN "p" "3"] ["w"]).top_offset.pop (itemN "q" "4"),
          peek_offset := if (itemN "q" "4").peek then (Stack.mk ⟨["9"], []⟩ ⟨[], []⟩ ⟨[], []⟩ [itemN "p" "3"] ["w"]).peek_offset else (Stack.mk ⟨["9"], []⟩ ⟨[], []⟩ ⟨[], []⟩ [itemN "p" "3"] ["w"]).peek_offset.pop (itemN "q" "4"),
          vars := [] },
        PopResult.sizeMismatch ("Size mismatch when popping '" ++
          (itemN "p" "3").name ++ "' from stack to assign to " ++
          (itemN "q" "4").name ++ ". Expected " ++ (itemN "q" "4").size ++
          " got " ++ (itemN "p" "3").size)) :=
  ⟨by decide, by decide,
    C10_pop_not_atomic_on_mismatch
      (Stack.mk ⟨["9"], []⟩ ⟨[], []⟩ ⟨[], []⟩ [itemN "p" "3"] ["w"])
      (itemN "q" "4") (itemN "p" "3") [] (by decide) (by decide)⟩

/-- Claim C8 (amended): the rendered displacement depends only on the
multisets of recorded popped and pushed terms provided at least one term has
been recorded on each side (so that `simplify` actually sorts); when one list
is empty, `simplify` returns early and the surviving list is rendered in
insertion order, which is order-sensitive. -/
theorem C8_amended_render_multiset_invariant (s t : StackOffset)
    (h1 : s.popped ≠ []) (h2 : s.pushed ≠ [])
    (hp : List.Perm s.popped t.popped) (hq : List.Perm s.pushed t.pushed) :
    s.toCString = t.toCString := by
  unfold StackOffset.toCString
  rw [to_c_snd, to_c_snd, simplify_eq_of_perm hp hq h1 h2]

/-- Claim C8, counterexample: two recording orders of the same pushed-term
multiset (no popped terms) render differently: `"b + a"` versus `"a + b"`. -/
theorem C8_counterexample :
    List.Perm (["b", "a"] : List String) ["a", "b"] ∧
    (StackOffset.mk [] ["b", "a"]).toCString ≠
      (StackOffset.mk [] ["a", "b"]).toCString := by
  constructor
  · decide
  · decide

theorem C8_amended_witness :
    (["b", "a"] : List String) ≠ [] ∧
    (["1"] : List String) ≠ [] ∧
    List.Perm (["b", "a"] : List String) ["a", "b"] ∧
    List.Perm (["1"] : List String) ["1"] ∧
    (StackOffset.mk ["b", "a"] ["1"]).toCString =
      (StackOffset.mk ["a", "b"] ["1"]).toCString :=
  ⟨by decide, by decide, by decide, by decide,
    C8_amended_render_multiset_invariant ⟨["b", "a"], ["1"]⟩ ⟨["a", "b"], ["1"]⟩
      (by decide) (by decide) (by decide) (by decide)⟩

/-- Claim C9 (amended): `to_c` is not idempotent in general, but it is stable
from the second call on: for every state, the third call returns the same
string as the second call (the state after one call is simplified, and
simplification is a fixed point from the second application onward). -/
theorem C9_amended_render_stable_after_first_call (o : StackOffset) :
    ((((o.to_c).1.to_c).1.to_c)).2 = ((o.to_c).1.to_c).2 := by
  rw [to_c_snd, to_c_snd, to_c_fst, to_c_fst, simplify_stable]

/-- Claim C9, counterexample: calling `to_c()` twice on the state with
`popped = ["c", "b", "a"]`, `pushed = ["b", "d"]` returns `"-c - a + d"` the
first time and `"-a - c + d"` the second time — rendering is not idempotent. -/
theorem C9_counterexample :
    ((StackOffset.mk ["c", "b", "a"] ["b", "d"]).to_c).2 ≠
      ((((StackOffset.mk ["c", "b", "a"] ["b", "d"]).to_c).1).to_c).2 := by
  decide

/-- Claim C1 (amended): for every sequence of pop and push calls on a fresh
Stack that completes without raising SizeMismatch and in which every slot's
effective size (`var_size`) is an integer literal, after flush has pushed each
in-flight slot onto the base offset, the rendered displacement of the base
offset equals the rendered displacement of the top offset (so the internal
assertion in `flush` passes).  With symbolic (non-integer) effective sizes the
assertion can fail even without a SizeMismatch, see the counterexample. -/
theorem C1_amended_flush_base_renders_as_top (ops : List Op) (s : Stack)
    (outs : List String)
    (hint : ∀ op ∈ ops, (pyInt? (var_size (Op.item op))).isSome)
    (hrun : runStack Stack.init ops = some (s, outs)) :
    ((s.vars.foldl flushStep (s.base_offset, [])).1.to_c).2 =
      (s.top_offset.to_c).2 ∧ (s.flush).isSome := by
  have hinv := stackInv_run ops Stack.init s outs hint stackInv_init hrun
  exact ⟨flush_strings_eq hinv, flush_isSome hinv⟩

/-- Claim C1, counterexample: with symbolic sizes `"b"`, `"a"`, `"c"` pushed in
non-lexicographic order and one matching pop (so no SizeMismatch is raised),
the flush-time assertion fails: base renders `"b + a"` while top renders
`"a + b"`. -/
theorem C1_counterexample :
    (runStack Stack.init
      [Op.pushOp (itemN "xb" "b"), Op.pushOp (itemN "xa" "a"),
       Op.pushOp (itemN "xc" "c"), Op.popOp (itemN "y" "c")]).map
        (fun p => (p.1.flush).isSome) = some false := by
  decide

theorem C1_amended_witness :
    (∀ op ∈ [Op.pushOp (itemN "a" "1"), Op.popOp (itemN "b" "1")],
      (pyInt? (var_size (Op.item op))).isSome) ∧
    runStack Stack.init [Op.pushOp (itemN "a" "1"), Op.popOp (itemN "b" "1")] =
      some (Stack.mk ⟨["1"], ["1"]⟩ ⟨[], []⟩ ⟨["1"], []⟩ [] ["b"],
        ["", "b = a;\n"]) ∧
    (((Stack.mk ⟨["1"], ["1"]⟩ ⟨[], []⟩ ⟨["1"], []⟩ [] ["b"]).vars.foldl
        flushStep ((Stack.mk ⟨["1"], ["1"]⟩ ⟨[], []⟩ ⟨["1"], []⟩ [] ["b"]).base_offset,
          [])).1.to_c).2 =
      ((Stack.mk ⟨["1"], ["1"]⟩ ⟨[], []⟩ ⟨["1"], []⟩ [] ["b"]).top_offset.to_c).2 ∧
    ((Stack.mk ⟨["1"], ["1"]⟩ ⟨[], []⟩ ⟨["1"], []⟩ [] ["b"]).flush).isSome := by
  refine ⟨by decide, by decide, ?_, ?_⟩
  all_goals
    have h := C1_amended_flush_base_renders_as_top
      [Op.pushOp (itemN "a" "1"), Op.popOp (itemN "b" "1")]
      (Stack.mk ⟨["1"], ["1"]⟩ ⟨[], []⟩ ⟨["1"], []⟩ [] ["b"])
      ["", "b = a;\n"] (by decide) (by decide)
  · exact h.1
  · exact h.2

/-- Claim C7 (amended): for every sequence of pop/push calls with no flush in
which the multiset of popped effective-size terms equals the multiset of
pushed effective-size terms, rendering the top offset yields `"0"` (the top
offset records every pop and every push, whichever branch is taken); the base
offset also renders `"0"` provided every pop is issued while an in-flight
value is available (push-before-pop pairing) — a pop issued on an empty
in-flight list records against base and leaves base nonzero, see the
counterexample. -/
theorem C7_amended_cancellation_renders_zero (ops : List Op) (s : Stack)
    (outs : List String)
    (hrun : runStack Stack.init ops = some (s, outs))
    (hperm : List.Perm (popTerms ops) (pushTerms ops)) :
    s.top_offset.toCString = "0" ∧
    (popsInFlightOk Stack.init ops = true → s.base_offset.toCString = "0") := by
  obtain ⟨hbal, hbase⟩ := c7_run ops Stack.init s outs hrun
  constructor
  · apply toCString_zero
    intro x
    have hb := hbal x
    have hc := cnt_perm hperm x
    simp only [Stack.init] at hb
    simp only [cnt] at hb
    omega
  · intro hchk
    rw [hbase hchk]
    decide

/-- Claim C7, counterexample: the equal-size pair pop-then-push (sizes both
`"1"`) issued on a fresh stack renders top as `"0"` but base as `"-1"`, not
`"0"`: the pop hit the empty in-flight list and was recorded against base. -/
theorem C7_counterexample :
    popTerms [Op.popOp (itemN "a" "1"), Op.pushOp (itemN "b" "1")] = ["1"] ∧
    pushTerms [Op.popOp (itemN "a" "1"), Op.pushOp (itemN "b" "1")] = ["1"] ∧
    (runStack Stack.init [Op.popOp (itemN "a" "1"), Op.pushOp (itemN "b" "1")]).map
      (fun p => (p.1.top_offset.toCString, p.1.base_offset.toCString)) =
      some ("0", "-1") ∧ ("-1" : String) ≠ "0" := by
  refine ⟨by decide, by decide, by decide, by decide⟩

theorem C7_amended_witness :
    runStack Stack.init [Op.pushOp (itemN "u" "2"), Op.popOp (itemN "w" "2")] =
      some (Stack.mk ⟨["2"], ["2"]⟩ ⟨[], []⟩ ⟨["2"], []⟩ [] ["w"],
        ["", "w = u;\n"]) ∧
    List.Perm (popTerms [Op.pushOp (itemN "u" "2"), Op.popOp (itemN "w" "2")])
      (pushTerms [Op.pushOp (itemN "u" "2"), Op.popOp (itemN "w" "2")]) ∧
    ((Stack.mk ⟨["2"], ["2"]⟩ ⟨[], []⟩ ⟨["2"], []⟩ [] ["w"]).top_offset.toCString =
        "0" ∧
      (popsInFlightOk Stack.init
          [Op.pushOp (itemN "u" "2"), Op.popOp (itemN "w" "2")] = true →
        (Stack.mk ⟨["2"], ["2"]⟩ ⟨[], []⟩ ⟨["2"], []⟩ [] ["w"]).base_offset.toCString =
          "0")) :=
  ⟨by decide, by decide,
    C7_amended_cancellation_renders_zero
      [Op.pushOp (itemN "u" "2"), Op.popOp (itemN "w" "2")]
      (Stack.mk ⟨["2"], ["2"]⟩ ⟨[], []⟩ ⟨["2"], []⟩ [] ["w"]) ["", "w = u;\n"]
      (by decide) (by decide)⟩
